import Mathlib

/-!
Verification of the easypitch-js note-synthesis and sequencing library.

The JavaScript source is shallowly embedded: JS numbers become real
numbers, runtime values that are `undefined`/NaN become `Option.none`,
and the single-threaded `setTimeout` chain of the sequencer becomes an
explicit event trace annotated with virtual wall-clock offsets.
-/

noncomputable section

open Real

/-- Table of note frequencies in octave 8 by name, from the source's
`noteFreqs` object literal.  Object-property lookup is embedded as
association-list lookup; a missing key (JS `undefined`) is `none`. -/
def noteFreqs : List (String × ℝ) :=
  [("C", 4186.01), ("C#", 4434.92), ("Db", 4434.92), ("D", 4698.63),
   ("D#", 4978.03), ("Eb", 4978.03), ("E", 5274.04), ("F", 5587.65),
   ("F#", 5919.91), ("Gb", 5919.91), ("G", 6271.93), ("G#", 6644.88),
   ("Ab", 6644.88), ("A", 7040.00), ("A#", 7458.62), ("Bb", 7458.62),
   ("B", 7902.13)]

namespace Note

/-- Embedding of `Note.getFreq`: `octaveScale = Math.pow(2, octave - 8)`
multiplied by the table entry.  When the name is not in the table the JS
code multiplies by `undefined` and returns NaN; the embedding returns
`none` in that case. -/
def getFreq (name : String) (octave : ℤ) : Option ℝ :=
  (noteFreqs.lookup name).map (fun f => (2 : ℝ) ^ (octave - 8) * f)

end Note

/-- C8: for every recognized pitch name and every integer octave `o`, the
frequency lookup satisfies `getFreq name (o+1) = 2 * getFreq name o`. -/
theorem getFreq_octave_doubling (name : String) (o : ℤ)
    (h : (noteFreqs.lookup name).isSome) :
    ∃ x, Note.getFreq name o = some x ∧ Note.getFreq name (o + 1) = some (2 * x) := by
  obtain ⟨f, hf⟩ := Option.isSome_iff_exists.mp h
  refine ⟨(2 : ℝ) ^ (o - 8) * f, ?_, ?_⟩ <;> simp only [Note.getFreq, hf, Option.map_some']
  rw [show o + 1 - 8 = o - 8 + 1 by ring, zpow_add_one₀ (two_ne_zero)]
  ring_nf

/-- Witness for C8 at the concrete pitch "A", octave 4. -/
theorem getFreq_octave_doubling_witness :
    ∃ x, Note.getFreq "A" 4 = some x ∧ Note.getFreq "A" (4 + 1) = some (2 * x) :=
  getFreq_octave_doubling "A" 4 (by rfl)

/-- C9: each enharmonically equivalent pair of recognized pitch names
(C#/Db, D#/Eb, F#/Gb, G#/Ab, A#/Bb) gets the identical frequency from the
lookup at every integer octave. -/
theorem enharmonic_pairs_equal_freq (o : ℤ) :
    Note.getFreq "C#" o = Note.getFreq "Db" o ∧
    Note.getFreq "D#" o = Note.getFreq "Eb" o ∧
    Note.getFreq "F#" o = Note.getFreq "Gb" o ∧
    Note.getFreq "G#" o = Note.getFreq "Ab" o ∧
    Note.getFreq "A#" o = Note.getFreq "Bb" o := by
  refine ⟨?_, ?_, ?_, ?_, ?_⟩ <;> rfl

/-- Embedding of the source's `attackAndDecay(x, attackPoint, decayPoint)`:
linear ramp `(1/attackPoint)*x` below `attackPoint`, constant `1.0` below
`decayPoint`, then the line of slope `-1/(1-decayPoint)` through
`(decayPoint, 1)`. -/
def attackAndDecay (x attackPoint decayPoint : ℝ) : ℝ :=
  if x < attackPoint then (1 / attackPoint) * x
  else if x < decayPoint then 1.0
  else (-1.0 / (1.0 - decayPoint)) * (x - decayPoint) + 1.0

/-- Helper: with the default breakpoints the envelope stays in [0,1] on
the whole normalized-progress interval [0,1]. -/
theorem attackAndDecay_mem_unitInterval {x : ℝ} (h0 : 0 ≤ x) (h1 : x ≤ 1) :
    0 ≤ attackAndDecay x 0.1 0.5 ∧ attackAndDecay x 0.1 0.5 ≤ 1 := by
  unfold attackAndDecay
  split
  · constructor <;> nlinarith
  · split
    · norm_num
    · constructor <;> [nlinarith; nlinarith]

/-- C4: with attackPoint = 0.1 and decayPoint = 0.5 the piecewise-linear
envelope is 0 at 0, 1 at both breakpoints, 0 at 1, non-decreasing on
[0, 0.1] and non-increasing on [0.5, 1]. -/
theorem attackAndDecay_envelope_shape :
    attackAndDecay 0 0.1 0.5 = 0 ∧
    attackAndDecay 0.1 0.1 0.5 = 1 ∧
    attackAndDecay 0.5 0.1 0.5 = 1 ∧
    attackAndDecay 1 0.1 0.5 = 0 ∧
    (∀ x y : ℝ, 0 ≤ x → x ≤ y → y ≤ 0.1 →
      attackAndDecay x 0.1 0.5 ≤ attackAndDecay y 0.1 0.5) ∧
    (∀ x y : ℝ, 0.5 ≤ x → x ≤ y → y ≤ 1 →
      attackAndDecay y 0.1 0.5 ≤ attackAndDecay x 0.1 0.5) := by
  refine ⟨by norm_num [attackAndDecay], by norm_num [attackAndDecay],
    by norm_num [attackAndDecay], by norm_num [attackAndDecay], ?_, ?_⟩
  · intro x y hx hxy hy
    unfold attackAndDecay
    split_ifs <;> nlinarith
  · intro x y hx hxy hy
    unfold attackAndDecay
    split_ifs <;> nlinarith

/-- Witness for C4's monotonicity clauses at concrete points. -/
theorem attackAndDecay_envelope_shape_witness :
    attackAndDecay 0.05 0.1 0.5 ≤ attackAndDecay 0.1 0.1 0.5 ∧
    attackAndDecay 0.9 0.1 0.5 ≤ attackAndDecay 0.6 0.1 0.5 :=
  ⟨attackAndDecay_envelope_shape.2.2.2.2.1 0.05 0.1 (by norm_num) (by norm_num)
      (by norm_num),
   attackAndDecay_envelope_shape.2.2.2.2.2 0.6 0.9 (by norm_num) (by norm_num)
      (by norm_num)⟩

/-- Embedding of `Instrument.WAVES.SINE`: `(t) => Math.sin(2*Math.PI*t)`. -/
def sineWave (t : ℝ) : ℝ := Real.sin (2 * Real.pi * t)

/-- Loop of the waveform function built by the `Instrument` constructor:
for each overtone index `i` with weight `w`, accumulate
`w * attackAndDecay(t/tmax, 0.1, 0.5) * waveFunc(freq*(i+1)*t)`. -/
def overtoneAccum (waveFunc : ℝ → ℝ) (t freq tmax : ℝ) : List ℝ → ℕ → ℝ
  | [], _ => 0
  | w :: ws, i =>
      w * attackAndDecay (t / tmax) 0.1 0.5 * waveFunc (freq * ((i : ℝ) + 1) * t)
        + overtoneAccum waveFunc t freq tmax ws (i + 1)

namespace Instrument

/-- Waveform function built by the `Instrument` constructor: the overtone
accumulation divided by `overtoneSum = overtones.reduce((a,b) => a+b)`. -/
def waveform (overtones : List ℝ) (waveFunc : ℝ → ℝ) (t freq tmax : ℝ) : ℝ :=
  overtoneAccum waveFunc t freq tmax overtones 0 / overtones.sum

end Instrument

/-- Embedding of one channel of `RawInstrument._playFreq`: the buffer holds
`context.sampleRate * time` frames (the Web Audio `length` argument is
truncated to an integer) and frame `i` is `waveformFunc(i/sampleRate, freq,
time)`.  The source performs no validation of `time`. -/
def renderChannel (waveformFunc : ℝ → ℝ → ℝ → ℝ) (sampleRate freq time : ℝ) :
    List ℝ :=
  (List.range (⌊sampleRate * time⌋).toNat).map
    fun (i : ℕ) => waveformFunc ((i : ℝ) / sampleRate) freq time

/-- Helper: the overtone accumulation is bounded by the weight sum when all
weights are nonnegative, the envelope factor has absolute value at most 1
and the base wave shape has absolute value at most 1. -/
theorem overtoneAccum_abs_le (waveFunc : ℝ → ℝ) (t freq tmax : ℝ)
    (hwave : ∀ x, |waveFunc x| ≤ 1)
    (henv : |attackAndDecay (t / tmax) 0.1 0.5| ≤ 1) :
    ∀ (l : List ℝ) (i : ℕ), (∀ w ∈ l, 0 ≤ w) →
      |overtoneAccum waveFunc t freq tmax l i| ≤ l.sum := by
  intro l
  induction l with
  | nil => intro i _; simp [overtoneAccum]
  | cons w ws ih =>
    intro i h
    have hw : 0 ≤ w := h w (by simp)
    have hws : ∀ u ∈ ws, 0 ≤ u := fun u hu => h u (by simp [hu])
    have h12 : |attackAndDecay (t / tmax) 0.1 0.5|
        * |waveFunc (freq * ((i : ℝ) + 1) * t)| ≤ 1 :=
      mul_le_one₀ henv (abs_nonneg _) (hwave _)
    have h1 : |w * attackAndDecay (t / tmax) 0.1 0.5
        * waveFunc (freq * ((i : ℝ) + 1) * t)| ≤ w := by
      rw [abs_mul, abs_mul, abs_of_nonneg hw, mul_assoc]
      exact mul_le_of_le_one_right hw h12
    have h2 := ih (i + 1) hws
    calc |overtoneAccum waveFunc t freq tmax (w :: ws) i|
        ≤ |w * attackAndDecay (t / tmax) 0.1 0.5
            * waveFunc (freq * ((i : ℝ) + 1) * t)|
          + |overtoneAccum waveFunc t freq tmax ws (i + 1)| := by
          rw [overtoneAccum]; exact abs_add _ _
      _ ≤ w + ws.sum := by linarith
      _ = (w :: ws).sum := (List.sum_cons).symm

/-- C1 (amended): for every overtone-weight sequence with NONNEGATIVE
weights and positive sum, every sample placed in the rendered channel
buffer by the Instrument's waveform function lies in [-1, 1], for every
base wave shape bounded by 1 in absolute value, every frequency ≥ 0,
every duration > 0 and every sample rate > 0. -/
theorem instrument_samples_bounded (overtones : List ℝ) (waveFunc : ℝ → ℝ)
    (sampleRate freq time : ℝ)
    (hw : ∀ w ∈ overtones, 0 ≤ w) (hsum : 0 < overtones.sum)
    (hwave : ∀ x, |waveFunc x| ≤ 1)
    (hsr : 0 < sampleRate) (htime : 0 < time) (hfreq : 0 ≤ freq) :
    ∀ s ∈ renderChannel (Instrument.waveform overtones waveFunc)
        sampleRate freq time, |s| ≤ 1 := by
  intro s hmem
  simp only [renderChannel, List.mem_map, List.mem_range] at hmem
  obtain ⟨i, hi, rfl⟩ := hmem
  have hit : (i : ℝ) < sampleRate * time := by
    have h1 : (i : ℤ) < ⌊sampleRate * time⌋ := Int.lt_toNat.mp hi
    have h2 : ((i : ℤ) : ℝ) < (⌊sampleRate * time⌋ : ℝ) := by exact_mod_cast h1
    calc ((i : ℕ) : ℝ) = ((i : ℤ) : ℝ) := by push_cast; ring
      _ < (⌊sampleRate * time⌋ : ℝ) := h2
      _ ≤ sampleRate * time := Int.floor_le _
  have ht2 : (i : ℝ) / sampleRate < time := by
    rw [div_lt_iff₀ hsr]; linarith
  have hx0 : 0 ≤ (i : ℝ) / sampleRate / time := by positivity
  have hx1 : (i : ℝ) / sampleRate / time ≤ 1 := by
    rw [div_le_one htime]; exact le_of_lt ht2
  have henv' := attackAndDecay_mem_unitInterval hx0 hx1
  have henv : |attackAndDecay ((i : ℝ) / sampleRate / time) 0.1 0.5| ≤ 1 :=
    abs_le.mpr ⟨by linarith [henv'.1], henv'.2⟩
  have hacc := overtoneAccum_abs_le waveFunc ((i : ℝ) / sampleRate) freq time
    hwave henv overtones 0 hw
  unfold Instrument.waveform
  rw [abs_div, abs_of_nonneg hsum.le, div_le_one hsum]
  exact hacc

/-- C1 counterexample: the overtone weights [2, -1] have positive sum 1,
yet with the default sine base wave, frequency 1 ≥ 0 and duration 1 > 0,
the sample at time 1/4 (frame 1 of the buffer rendered at sample rate 4)
equals 2, which is outside [-1, 1]. -/
theorem instrument_sample_exceeds_one :
    ([2, -1] : List ℝ).sum = 1 ∧
    Instrument.waveform [2, -1] sineWave (1/4) 1 1 ∈
      renderChannel (Instrument.waveform [2, -1] sineWave) 4 1 1 ∧
    1 < Instrument.waveform [2, -1] sineWave (1/4) 1 1 := by
  have hfloor : (⌊(4 : ℝ) * 1⌋).toNat = 4 := by norm_num; rfl
  have henv : attackAndDecay ((1/4 : ℝ) / 1) 0.1 0.5 = 1 := by
    norm_num [attackAndDecay]
  have s1 : sineWave (1 * (((0 : ℕ) : ℝ) + 1) * (1/4)) = 1 := by
    unfold sineWave
    rw [show (2 * Real.pi * (1 * (((0 : ℕ) : ℝ) + 1) * (1/4))) = Real.pi / 2 by
      push_cast; ring]
    exact Real.sin_pi_div_two
  have s2 : sineWave (1 * (((1 : ℕ) : ℝ) + 1) * (1/4)) = 0 := by
    unfold sineWave
    rw [show (2 * Real.pi * (1 * (((1 : ℕ) : ℝ) + 1) * (1/4))) = Real.pi by
      push_cast; ring]
    exact Real.sin_pi
  have acc1 : overtoneAccum sineWave (1/4) 1 1 [-1] 1
      = -1 * attackAndDecay ((1/4 : ℝ) / 1) 0.1 0.5
          * sineWave (1 * (((1 : ℕ) : ℝ) + 1) * (1/4)) + 0 := rfl
  have acc0 : overtoneAccum sineWave (1/4) 1 1 [2, -1] 0
      = 2 * attackAndDecay ((1/4 : ℝ) / 1) 0.1 0.5
          * sineWave (1 * (((0 : ℕ) : ℝ) + 1) * (1/4))
        + overtoneAccum sineWave (1/4) 1 1 [-1] 1 := rfl
  have hval : Instrument.waveform [2, -1] sineWave (1/4) 1 1 = 2 := by
    unfold Instrument.waveform
    rw [acc0, acc1, henv, s1, s2]
    norm_num
  refine ⟨by norm_num, ?_, by rw [hval]; norm_num⟩
  simp only [renderChannel, hfloor, List.mem_map, List.mem_range]
  exact ⟨1, by norm_num, by norm_num⟩

/-- Witness for C1's amended theorem: the nonnegative weights [1, 1/4]
(the ones the repository instantiates) with the sine base wave give a
bounded sample at frame 1 of a buffer rendered at sample rate 4. -/
theorem instrument_samples_bounded_witness :
    |Instrument.waveform [1, 1/4] sineWave (1/4) 1 1| ≤ 1 := by
  have hmem : Instrument.waveform [1, 1/4] sineWave (1/4) 1 1 ∈
      renderChannel (Instrument.waveform [1, 1/4] sineWave) 4 1 1 := by
    have hfloor : (⌊(4 : ℝ) * 1⌋).toNat = 4 := by norm_num; rfl
    simp only [renderChannel, hfloor, List.mem_map, List.mem_range]
    exact ⟨1, by norm_num, by norm_num⟩
  exact instrument_samples_bounded [1, 1/4] sineWave 4 1 1
    (by intro w hw; fin_cases hw <;> norm_num)
    (by norm_num)
    (by intro x; unfold sineWave
        exact abs_le.mpr ⟨Real.neg_one_le_sin _, Real.sin_le_one _⟩)
    (by norm_num) (by norm_num) (by norm_num)
    (Instrument.waveform [1, 1/4] sineWave (1/4) 1 1) hmem

/-- Embedding of the source's log-normal envelope
`lognormal(x) = 1/Math.sqrt(2*Math.PI) * Math.pow(Math.E, -1/2*Math.pow(Math.log(x), 2))`.
At `x = 0` the JS expression evaluates to 0 because `Math.log(0)` is
`-Infinity` and `e` to that power is 0; Lean's `Real.log 0` is instead 0,
so the source's value at 0 is written as an explicit branch. -/
def lognormal (x : ℝ) : ℝ :=
  if x = 0 then 0
  else 1 / Real.sqrt (2 * Real.pi) * Real.exp (-(1/2) * (Real.log x) ^ 2)

/-- Loop of the waveform function built by the `SimpleInstrument`
constructor: sine overtones with amplitudes shaped by `lognormal(50*t)`. -/
def simpleOvertoneAccum (t freq : ℝ) : List ℝ → ℕ → ℝ
  | [], _ => 0
  | w :: ws, i =>
      w * lognormal (50 * t)
          * Real.sin (2 * Real.pi * (freq * ((i : ℝ) + 1) * t))
        + simpleOvertoneAccum t freq ws (i + 1)

namespace SimpleInstrument

/-- Waveform function built by the `SimpleInstrument` constructor. -/
def waveform (overtones : List ℝ) (t freq : ℝ) : ℝ :=
  simpleOvertoneAccum t freq overtones 0 / overtones.sum

end SimpleInstrument

/-- Helper: the log-normal envelope is never negative. -/
theorem lognormal_nonneg (x : ℝ) : 0 ≤ lognormal x := by
  unfold lognormal
  split
  · exact le_refl 0
  · positivity

/-- Helper: the log-normal envelope never exceeds `1/√(2π)`. -/
theorem lognormal_le_max (x : ℝ) : lognormal x ≤ 1 / Real.sqrt (2 * Real.pi) := by
  unfold lognormal
  split
  · positivity
  · have h1 : Real.exp (-(1/2) * (Real.log x) ^ 2) ≤ 1 :=
      Real.exp_le_one_iff.mpr (by nlinarith [sq_nonneg (Real.log x)])
    have h2 : (0:ℝ) ≤ 1 / Real.sqrt (2 * Real.pi) := by positivity
    exact mul_le_of_le_one_right h2 h1

/-- Helper: `1 < √(2π)`. -/
theorem one_lt_sqrt_two_pi : 1 < Real.sqrt (2 * Real.pi) :=
  (Real.lt_sqrt (by norm_num)).mpr (by nlinarith [Real.pi_gt_three])

/-- Helper: the SimpleInstrument accumulation is bounded by the weight sum
times the log-normal envelope when weights are nonnegative. -/
theorem simpleOvertoneAccum_abs_le (t freq : ℝ) :
    ∀ (l : List ℝ) (i : ℕ), (∀ w ∈ l, 0 ≤ w) →
      |simpleOvertoneAccum t freq l i| ≤ l.sum * lognormal (50 * t) := by
  intro l
  induction l with
  | nil => intro i _; simp [simpleOvertoneAccum]
  | cons w ws ih =>
    intro i h
    have hw : 0 ≤ w := h w (by simp)
    have hws : ∀ u ∈ ws, 0 ≤ u := fun u hu => h u (by simp [hu])
    have hL := lognormal_nonneg (50 * t)
    have hsin := abs_le.mpr
      ⟨Real.neg_one_le_sin (2 * Real.pi * (freq * ((i : ℝ) + 1) * t)),
       Real.sin_le_one (2 * Real.pi * (freq * ((i : ℝ) + 1) * t))⟩
    have h1 : |w * lognormal (50 * t)
        * Real.sin (2 * Real.pi * (freq * ((i : ℝ) + 1) * t))|
          ≤ w * lognormal (50 * t) := by
      rw [abs_mul, abs_mul, abs_of_nonneg hw, abs_of_nonneg hL]
      exact mul_le_of_le_one_right (by positivity) hsin
    have h2 := ih (i + 1) hws
    calc |simpleOvertoneAccum t freq (w :: ws) i|
        ≤ |w * lognormal (50 * t)
            * Real.sin (2 * Real.pi * (freq * ((i : ℝ) + 1) * t))|
          + |simpleOvertoneAccum t freq ws (i + 1)| := by
          rw [simpleOvertoneAccum]; exact abs_add _ _
      _ ≤ w * lognormal (50 * t) + ws.sum * lognormal (50 * t) := by linarith
      _ = (w :: ws).sum * lognormal (50 * t) := by rw [List.sum_cons]; ring

/-- Helper: at `t = 0` every term of the SimpleInstrument accumulation
vanishes because the log-normal envelope vanishes at 0. -/
theorem simpleOvertoneAccum_at_zero (freq : ℝ) :
    ∀ (l : List ℝ) (i : ℕ), simpleOvertoneAccum 0 freq l i = 0 := by
  intro l
  induction l with
  | nil => intro i; simp [simpleOvertoneAccum]
  | cons w ws ih =>
    intro i
    rw [simpleOvertoneAccum, ih (i + 1)]
    norm_num [lognormal]

/-- C10: the log-normal envelope satisfies `0 ≤ lognormal x ≤ 1/√(2π) < 1`
for every `x ≥ 0`, vanishes at 0 (the source expression's limiting value),
attains the maximum `1/√(2π)` exactly at `x = 1`, and consequently the
SimpleInstrument's waveform starts at amplitude 0 and, for nonnegative
weights with positive sum, never reaches full-scale amplitude 1. -/
theorem lognormal_envelope_props (x t freq : ℝ) (overtones : List ℝ)
    (hx : 0 ≤ x) (ht : 0 ≤ t)
    (hw : ∀ w ∈ overtones, 0 ≤ w) (hsum : 0 < overtones.sum) :
    0 ≤ lognormal x ∧
    lognormal x ≤ 1 / Real.sqrt (2 * Real.pi) ∧
    1 / Real.sqrt (2 * Real.pi) < 1 ∧
    lognormal 0 = 0 ∧
    (lognormal x = 1 / Real.sqrt (2 * Real.pi) ↔ x = 1) ∧
    SimpleInstrument.waveform overtones 0 freq = 0 ∧
    |SimpleInstrument.waveform overtones t freq| < 1 := by
  have hmax : (0:ℝ) < 1 / Real.sqrt (2 * Real.pi) := by positivity
  have hlt1 : 1 / Real.sqrt (2 * Real.pi) < 1 :=
    (div_lt_one (by positivity)).mpr one_lt_sqrt_two_pi
  refine ⟨lognormal_nonneg x, lognormal_le_max x, hlt1, if_pos rfl, ?_, ?_, ?_⟩
  · constructor
    · intro hmaxeq
      by_cases hx0 : x = 0
      · rw [hx0] at hmaxeq
        rw [lognormal, if_pos rfl] at hmaxeq
        exact absurd hmaxeq.symm (ne_of_gt hmax)
      · rw [lognormal, if_neg hx0] at hmaxeq
        have hne : 1 / Real.sqrt (2 * Real.pi) ≠ 0 := ne_of_gt hmax
        have hexp : Real.exp (-(1/2) * (Real.log x) ^ 2) = 1 := by
          have h' : 1 / Real.sqrt (2 * Real.pi)
              * Real.exp (-(1/2) * (Real.log x) ^ 2)
                = 1 / Real.sqrt (2 * Real.pi) * 1 := by
            rw [mul_one]; exact hmaxeq
          exact mul_left_cancel₀ hne h'
        have hexp0 : Real.exp (-(1/2) * (Real.log x) ^ 2) = Real.exp 0 := by
          rw [Real.exp_zero]; exact hexp
        have he := Real.exp_eq_exp.mp hexp0
        have hsq : (Real.log x) ^ 2 = 0 := by linarith
        have hlog : Real.log x = 0 := pow_eq_zero_iff two_ne_zero |>.mp hsq
        rcases Real.log_eq_zero.mp hlog with h | h | h
        · exact absurd h hx0
        · exact h
        · exfalso; rw [h] at hx; linarith
    · intro hx1
      rw [hx1, lognormal, if_neg (by norm_num)]
      simp [Real.log_one]
  · rw [SimpleInstrument.waveform, simpleOvertoneAccum_at_zero, zero_div]
  · rw [SimpleInstrument.waveform, abs_div, abs_of_nonneg hsum.le,
      div_lt_one hsum]
    have h1 := simpleOvertoneAccum_abs_le t freq overtones 0 hw
    have h2 := lognormal_le_max (50 * t)
    have h3 := lognormal_nonneg (50 * t)
    nlinarith

/-- Witness for C10 at `x = 1`, `t = 1`, frequency 440 and the overtone
weights [1, 0, 0, 1/4] the repository instantiates. -/
theorem lognormal_envelope_props_witness :
    0 ≤ lognormal 1 ∧
    lognormal 1 ≤ 1 / Real.sqrt (2 * Real.pi) ∧
    1 / Real.sqrt (2 * Real.pi) < 1 ∧
    lognormal 0 = 0 ∧
    (lognormal 1 = 1 / Real.sqrt (2 * Real.pi) ↔ (1 : ℝ) = 1) ∧
    SimpleInstrument.waveform [1, 0, 0, 1/4] 0 440 = 0 ∧
    |SimpleInstrument.waveform [1, 0, 0, 1/4] 1 440| < 1 :=
  lognormal_envelope_props 1 1 440 [1, 0, 0, 1/4] (by norm_num) (by norm_num)
    (by intro w hw; fin_cases hw <;> norm_num) (by norm_num)

/-- A timeline entry, the source's `Note` (name, octave, length) or
`Rest` (length); the length is the duration fraction, 1 = whole note. -/
inductive Entry
  | note (name : String) (octave : ℤ) (len : ℝ)
  | rest (len : ℝ)

/-- Duration fraction of an entry (`note.length` in the source; both
`Note` and `Rest` carry one). -/
def Entry.length : Entry → ℝ
  | .note _ _ l => l
  | .rest l => l

/-- Wall-clock seconds scheduled for an entry by `playNote`:
`secondsPerWholeNote * note.length` with `secondsPerWholeNote = 60/bpm`. -/
def entrySeconds (bpm : ℝ) (e : Entry) : ℝ := 60 / bpm * e.length

/-- Observable events of a sequencer run, each tagged with the virtual
wall-clock offset (seconds from the start of the run) at which it occurs.
A `submit` records `_playFreq` being handed a buffer for the entry at the
given list index, carrying the frequency the lookup produced (`none` when
the pitch name was unknown and the runtime value is NaN). -/
inductive SeqEvent
  | submit (index : ℕ) (freq : Option ℝ) (time : ℝ)
  | callback (time : ℝ)

/-- Embedding of `RawInstrument.playNotes`: the `nextNote` closure holds
the index `i`; at virtual time `now`, while entries remain, `playNote`
submits the entry's audio immediately when it is a `Note` (a `Rest`
submits nothing) and arms one `setTimeout` for `entrySeconds`; when that
timer fires the closure runs again on the next index.  When no entries
remain the caller-supplied callback is invoked.  Scheduling is
single-threaded and each step arms exactly one timer, so a run is this
linear trace. -/
def playNotesFrom (bpm : ℝ) : List Entry → ℕ → ℝ → List SeqEvent
  | [], _, now => [.callback now]
  | e :: es, i, now =>
      (match e with
        | .note name oct _ => [SeqEvent.submit i (Note.getFreq name oct) now]
        | .rest _ => []) ++
        playNotesFrom bpm es (i + 1) (now + entrySeconds bpm e)

/-- A full `playNotes` run starts at index 0 and virtual time 0. -/
def playNotes (notes : List Entry) (bpm : ℝ) : List SeqEvent :=
  playNotesFrom bpm notes 0 0

/-- Times at which the completion callback fires during a trace. -/
def callbacksOf : List SeqEvent → List ℝ
  | [] => []
  | .callback t :: es => t :: callbacksOf es
  | .submit _ _ _ :: es => callbacksOf es

/-- The (entry index, start offset) pairs of the audio submissions of a
trace, in order of occurrence. -/
def submitsOf : List SeqEvent → List (ℕ × ℝ)
  | [] => []
  | .submit i _ t :: es => (i, t) :: submitsOf es
  | .callback _ :: es => submitsOf es

theorem callbacksOf_append (a b : List SeqEvent) :
    callbacksOf (a ++ b) = callbacksOf a ++ callbacksOf b := by
  induction a with
  | nil => rfl
  | cons e es ih => cases e <;> simp [callbacksOf, ih]

theorem submitsOf_append (a b : List SeqEvent) :
    submitsOf (a ++ b) = submitsOf a ++ submitsOf b := by
  induction a with
  | nil => rfl
  | cons e es ih => cases e <;> simp [submitsOf, ih]

/-- Helper: a sequencer run fires the completion callback exactly once,
at the starting offset plus the sum of all entry durations. -/
theorem callbacksOf_playNotesFrom (bpm : ℝ) :
    ∀ (es : List Entry) (i : ℕ) (now : ℝ),
      callbacksOf (playNotesFrom bpm es i now)
        = [now + (es.map (entrySeconds bpm)).sum] := by
  intro es
  induction es with
  | nil => intro i now; simp [playNotesFrom, callbacksOf]
  | cons e es ih =>
    intro i now
    cases e with
    | note name oct l =>
      show callbacksOf ([SeqEvent.submit i (Note.getFreq name oct) now]
          ++ playNotesFrom bpm es (i + 1)
            (now + entrySeconds bpm (Entry.note name oct l))) = _
      rw [callbacksOf_append, ih]
      show ([] : List ℝ) ++ _ = _
      rw [List.nil_append, List.map_cons, List.sum_cons, ← add_assoc]
    | rest l =>
      show callbacksOf (([] : List SeqEvent)
          ++ playNotesFrom bpm es (i + 1)
            (now + entrySeconds bpm (Entry.rest l))) = _
      rw [List.nil_append, ih, List.map_cons, List.sum_cons, ← add_assoc]

/-- C2: for every finite entry list and every bpm > 0, a sequencer run
invokes the completion callback exactly once, and the total scheduled time
before it fires is `Σ (60/bpm) * durationFraction_i` over all entries. -/
theorem playNotes_completion (notes : List Entry) (bpm : ℝ) (h : 0 < bpm) :
    callbacksOf (playNotes notes bpm)
      = [(notes.map (fun e => 60 / bpm * e.length)).sum] := by
  rw [playNotes, callbacksOf_playNotesFrom bpm notes 0 0, zero_add]
  rfl

/-- Witness for C2: the spec's scenario [Note A4 1/4, Rest 1/4, Note A4 1/4]
at bpm 120. -/
theorem playNotes_completion_witness :
    callbacksOf (playNotes
        [Entry.note "A" 4 (1/4), Entry.rest (1/4), Entry.note "A" 4 (1/4)] 120)
      = [([Entry.note "A" 4 (1/4), Entry.rest (1/4),
          Entry.note "A" 4 (1/4)].map (fun e => 60 / 120 * e.length)).sum] :=
  playNotes_completion _ 120 (by norm_num)

theorem submitsOf_playNotesFrom_spec (bpm : ℝ) (hb : 0 < bpm) :
    ∀ (es : List Entry) (i : ℕ) (now : ℝ), (∀ e ∈ es, 0 < e.length) →
      (∀ p ∈ submitsOf (playNotesFrom bpm es i now),
          i ≤ p.1 ∧ p.1 < i + es.length ∧
          p.2 = now + ((es.take (p.1 - i)).map (entrySeconds bpm)).sum) ∧
      List.Pairwise (fun p q : ℕ × ℝ => p.1 < q.1 ∧ p.2 < q.2)
        (submitsOf (playNotesFrom bpm es i now)) := by
  intro es
  induction es with
  | nil =>
    intro i now _
    refine ⟨fun p hp => ?_, ?_⟩
    · simp [playNotesFrom, submitsOf] at hp
    · show List.Pairwise _ (submitsOf [SeqEvent.callback now])
      simp [submitsOf]
  | cons e es ih =>
    intro i now hl
    have hlen : 0 < e.length := hl e (by simp)
    have hsec : 0 < entrySeconds bpm e :=
      mul_pos (div_pos (by norm_num) hb) hlen
    have hles : ∀ e' ∈ es, 0 < e'.length := fun e' he' => hl e' (by simp [he'])
    obtain ⟨ihmem, ihpw⟩ := ih (i + 1) (now + entrySeconds bpm e) hles
    have hsumnn : ∀ k, 0 ≤ ((es.take k).map (entrySeconds bpm)).sum := by
      intro k
      apply List.sum_nonneg
      intro x hx
      simp only [List.mem_map] at hx
      obtain ⟨e', he', rfl⟩ := hx
      exact (mul_pos (div_pos (by norm_num) hb)
        (hles e' (List.mem_of_mem_take he'))).le
    have htail : ∀ p ∈ submitsOf (playNotesFrom bpm es (i + 1)
        (now + entrySeconds bpm e)),
        i ≤ p.1 ∧ p.1 < i + (e :: es).length ∧
        p.2 = now + (((e :: es).take (p.1 - i)).map (entrySeconds bpm)).sum := by
      intro p hp
      obtain ⟨h1, h2, h3⟩ := ihmem p hp
      refine ⟨by omega, by simp [List.length_cons]; omega, ?_⟩
      have hk : p.1 - i = (p.1 - (i + 1)) + 1 := by omega
      rw [hk, List.take_succ_cons, List.map_cons, List.sum_cons, h3]
      ring
    have hgt : ∀ p ∈ submitsOf (playNotesFrom bpm es (i + 1)
        (now + entrySeconds bpm e)), i < p.1 ∧ now < p.2 := by
      intro p hp
      obtain ⟨h1, _, h3⟩ := ihmem p hp
      refine ⟨by omega, ?_⟩
      rw [h3]
      have := hsumnn (p.1 - (i + 1))
      linarith
    cases e with
    | note name oct l =>
      have htr : submitsOf (playNotesFrom bpm (Entry.note name oct l :: es) i now)
          = (i, now) :: submitsOf (playNotesFrom bpm es (i + 1)
              (now + entrySeconds bpm (Entry.note name oct l))) := by
        show submitsOf ([SeqEvent.submit i (Note.getFreq name oct) now] ++ _) = _
        rw [submitsOf_append]
        rfl
      rw [htr]
      refine ⟨fun p hp => ?_, ?_⟩
      · rcases List.mem_cons.mp hp with h | h
        · subst h
          refine ⟨le_refl i, by simp [List.length_cons], ?_⟩
          simp
        · exact htail p h
      · exact List.pairwise_cons.mpr ⟨fun q hq => hgt q hq, ihpw⟩
    | rest l =>
      have htr : submitsOf (playNotesFrom bpm (Entry.rest l :: es) i now)
          = submitsOf (playNotesFrom bpm es (i + 1)
              (now + entrySeconds bpm (Entry.rest l))) := rfl
      rw [htr]
      exact ⟨htail, ihpw⟩

/-- Scheduled start offset of entry `i` of a run: the sum of the scheduled
seconds of all earlier entries. -/
def startOffset (notes : List Entry) (bpm : ℝ) (i : ℕ) : ℝ :=
  ((notes.take i).map (entrySeconds bpm)).sum

/-- C3: for entries with positive duration fractions and bpm > 0, audio is
submitted strictly in list order: the (index, start offset) pairs of the
submissions are pairwise strictly increasing, each submission occurs
exactly at the cumulative scheduled duration of all earlier entries, and
the offset of entry i+1 is entry i's offset plus entry i's full scheduled
duration, so entry i+1's submission never precedes the end of entry i's
scheduled window. -/
theorem playNotes_ordering (notes : List Entry) (bpm : ℝ)
    (hb : 0 < bpm) (hl : ∀ e ∈ notes, 0 < e.length) :
    (∀ p ∈ submitsOf (playNotes notes bpm),
        p.1 < notes.length ∧ p.2 = startOffset notes bpm p.1) ∧
    List.Pairwise (fun p q : ℕ × ℝ => p.1 < q.1 ∧ p.2 < q.2)
      (submitsOf (playNotes notes bpm)) ∧
    (∀ (i : ℕ) (e : Entry), notes[i]? = some e →
        startOffset notes bpm (i + 1)
          = startOffset notes bpm i + entrySeconds bpm e) := by
  obtain ⟨hmem, hpw⟩ := submitsOf_playNotesFrom_spec bpm hb notes 0 0 hl
  refine ⟨fun p hp => ?_, hpw, fun i e he => ?_⟩
  · obtain ⟨_, h2, h3⟩ := hmem p hp
    refine ⟨by omega, ?_⟩
    rw [startOffset]
    simpa using h3
  · rw [startOffset, startOffset, List.take_succ, he]
    simp

/-- Witness for C3 on a concrete two-entry timeline at bpm 120. -/
theorem playNotes_ordering_witness :
    (∀ p ∈ submitsOf (playNotes [Entry.note "A" 4 (1/4), Entry.rest (1/2)] 120),
        p.1 < ([Entry.note "A" 4 (1/4), Entry.rest (1/2)] : List Entry).length ∧
        p.2 = startOffset [Entry.note "A" 4 (1/4), Entry.rest (1/2)] 120 p.1) ∧
    List.Pairwise (fun p q : ℕ × ℝ => p.1 < q.1 ∧ p.2 < q.2)
      (submitsOf (playNotes [Entry.note "A" 4 (1/4), Entry.rest (1/2)] 120)) ∧
    (∀ (i : ℕ) (e : Entry),
        ([Entry.note "A" 4 (1/4), Entry.rest (1/2)] : List Entry)[i]? = some e →
        startOffset [Entry.note "A" 4 (1/4), Entry.rest (1/2)] 120 (i + 1)
          = startOffset [Entry.note "A" 4 (1/4), Entry.rest (1/2)] 120 i
            + entrySeconds 120 e) :=
  playNotes_ordering [Entry.note "A" 4 (1/4), Entry.rest (1/2)] 120
    (by norm_num)
    (by intro e he; fin_cases he <;> norm_num [Entry.length])

/-- C7: a `Rest` submits nothing to the synthesis engine, yet the sequencer
performs the identical timing transition as for a `Note` of the same
duration fraction: the rest's trace is exactly the note's trace without its
submit event, continuing at the same virtual time `now + 60/bpm * length`. -/
theorem rest_identical_timing (l bpm : ℝ) (name : String) (oct : ℤ)
    (es : List Entry) (i : ℕ) (now : ℝ) :
    playNotesFrom bpm (Entry.rest l :: es) i now
      = playNotesFrom bpm es (i + 1)
          (now + entrySeconds bpm (Entry.note name oct l)) ∧
    playNotesFrom bpm (Entry.note name oct l :: es) i now
      = SeqEvent.submit i (Note.getFreq name oct) now
          :: playNotesFrom bpm es (i + 1)
              (now + entrySeconds bpm (Entry.note name oct l)) := by
  constructor <;> rfl

/-- C5 counterexample: the pitch name "H" is not one of the recognized
classes, yet no error of any kind occurs: `getFreq` merely yields no
frequency (NaN at runtime), the entry is STILL submitted to the synthesis
engine, and the timer chain proceeds to the completion callback exactly on
schedule.  The library has no UnknownPitchName (or any other) error path. -/
theorem unknown_pitch_counterexample :
    Note.getFreq "H" 4 = none ∧
    playNotes [Entry.note "H" 4 (1/4)] 120
      = [SeqEvent.submit 0 none 0,
         SeqEvent.callback (0 + 60 / 120 * (1/4))] :=
  ⟨rfl, rfl⟩

/-- C5 (amended): for every pitch name outside the twelve recognized
classes, the frequency lookup yields no frequency (NaN at runtime) rather
than failing with an UnknownPitchName error; the note is still submitted
for rendering, and the sequencer's timing chain is unaffected: the timer is
armed for the entry's full duration and the completion callback times are
identical to those of a run whose first entry is a recognized note of the
same duration. -/
theorem unknown_pitch_no_error (name : String) (oct : ℤ)
    (h : noteFreqs.lookup name = none) (l bpm : ℝ) (es : List Entry) :
    Note.getFreq name oct = none ∧
    playNotes (Entry.note name oct l :: es) bpm
      = SeqEvent.submit 0 none 0
          :: playNotesFrom bpm es 1
              (0 + entrySeconds bpm (Entry.note name oct l)) ∧
    callbacksOf (playNotes (Entry.note name oct l :: es) bpm)
      = callbacksOf (playNotes (Entry.note "A" 4 l :: es) bpm) := by
  have hf : Note.getFreq name oct = none := by
    rw [Note.getFreq, h]; rfl
  refine ⟨hf, ?_, ?_⟩
  · show SeqEvent.submit 0 (Note.getFreq name oct) 0
        :: playNotesFrom bpm es 1 (0 + entrySeconds bpm (Entry.note name oct l))
      = _
    rw [hf]
  · rw [playNotes, playNotes, callbacksOf_playNotesFrom,
      callbacksOf_playNotesFrom]
    simp [entrySeconds, Entry.length]

/-- Witness for C5 at the spec's scenario: pitch name "H", octave 4. -/
theorem unknown_pitch_no_error_witness :
    Note.getFreq "H" 4 = none ∧
    playNotes (Entry.note "H" 4 (1/4) :: []) 120
      = SeqEvent.submit 0 none 0
          :: playNotesFrom 120 [] 1
              (0 + entrySeconds 120 (Entry.note "H" 4 (1/4))) ∧
    callbacksOf (playNotes (Entry.note "H" 4 (1/4) :: []) 120)
      = callbacksOf (playNotes (Entry.note "A" 4 (1/4) :: []) 120) :=
  unknown_pitch_no_error "H" 4 rfl (1/4) 120 []

/-- C6 counterexample: at duration -1 the render completes normally with an
empty buffer instead of failing: the requested frame count
`sampleRate * time` is the negative number -44100, `_playFreq` performs no
validation, and the library has no InvalidDuration error path. -/
theorem invalid_duration_counterexample :
    (44100 : ℝ) * (-1) < 0 ∧
    renderChannel (Instrument.waveform [1, 1/4] sineWave) 44100 440 (-1)
      = [] := by
  refine ⟨by norm_num, ?_⟩
  rw [renderChannel]
  have h2 : (⌊(44100 : ℝ) * (-1)⌋).toNat = 0 := by
    have h1 : (⌊(44100 : ℝ) * (-1)⌋) ≤ 0 := Int.floor_nonpos (by norm_num)
    omega
  rw [h2]
  rfl

/-- C6 (amended): the synthesis render performs no duration validation: for
every duration ≤ 0 and positive sample rate, the frame count requested from
the host (`sampleRate * time`) is non-positive and the rendered channel
buffer is empty; no InvalidDuration error is raised by the library (at
runtime the host's createBuffer rejects the non-positive length instead). -/
theorem nonpositive_duration_renders_empty (waveformFunc : ℝ → ℝ → ℝ → ℝ)
    (sampleRate freq time : ℝ) (hsr : 0 < sampleRate) (ht : time ≤ 0) :
    sampleRate * time ≤ 0 ∧
    renderChannel waveformFunc sampleRate freq time = [] := by
  have h1 : sampleRate * time ≤ 0 := mul_nonpos_of_nonneg_of_nonpos hsr.le ht
  refine ⟨h1, ?_⟩
  rw [renderChannel]
  have h2 : (⌊sampleRate * time⌋).toNat = 0 := by
    have := Int.floor_nonpos h1
    omega
  rw [h2]
  rfl

/-- Witness for C6's amended theorem at duration 0 and sample rate 44100. -/
theorem nonpositive_duration_renders_empty_witness :
    (44100 : ℝ) * 0 ≤ 0 ∧
    renderChannel (fun t freq tmax => t + freq + tmax) 44100 440 0 = [] :=
  nonpositive_duration_renders_empty _ 44100 440 0 (by norm_num) le_rfl
